import Mathlib

/-!
Verification of the guarded thread-local storage library (`src/lib.rs`).

The per-thread store of one key is `Inner { item: Vec<Option<T>> }`; we embed
it as a `List (Option T)`.  The operations embedded below are:

* `GuardedKey::set` pushes `Some t` and returns a `Guard` holding the new
  last index (`inner.item.len() - 1` after the push);
* `GuardedKey::get` reads `inner.item.last()`; panics with the unset-access
  message when the list is empty, and with the internal-error message when
  the last entry is `None`;
* `Guard::drop` writes `None` through `get_mut(self.index).unwrap()` and then
  pops the last entry while it is `None`.

Since every `Guard` is dropped at most once and only guards returned by `set`
exist, whole executions are modelled as traces of `set`/`release` operations
over a system state that records, for every guard ever created, its slot
index, its value and whether it has been released.
-/

namespace GuardedTls

/-- Outcome of `GuardedKey::get`: `unset` is the panic
"cannot access a guarded thread local variable without calling `set` first",
`internalError` is the panic "internal error: top of item list is none",
and `value v` is a normal return of the cloned value `v`. -/
inductive GetResult (T : Type) where
  | unset
  | internalError
  | value (v : T)
deriving DecidableEq, Repr

/-- `GuardedKey::get`: reads `inner.item.last().cloned()`; `none` means the
unset-access panic, a last entry of `none` means the internal-error panic. -/
def get {T : Type} (item : List (Option T)) : GetResult T :=
  match item.getLast? with
  | none => GetResult.unset
  | some none => GetResult.internalError
  | some (some v) => GetResult.value v

/-- The compaction loop at the end of `Guard::drop`:
`while let Some(item) = inner.item.last() { if item.is_none() { pop } else { break } }`,
i.e. the longest all-`None` suffix is removed.  Dropping from the end while
the last entry is `None` is dropping the leading `isNone` run of the reversed
list; the lemmas `compact_getLast?_none`, `compact_getLast?_some` and
`compact_nil` recover the loop-step reading of this definition. -/
def compact {T : Type} (item : List (Option T)) : List (Option T) :=
  (item.reverse.dropWhile Option.isNone).reverse

/-- The body of `Guard::drop`: `*inner.item.get_mut(index).unwrap() = None`
followed by the compaction loop.  `get_mut` on an out-of-bounds index yields
`None` and the `unwrap` panics; that panic is modelled as `none`. -/
def release {T : Type} (item : List (Option T)) (index : Nat) : Option (List (Option T)) :=
  if index < item.length then some (compact (item.set index none)) else none

/-- The data a live `Guard` carries (`inner` reference aside): its slot
`index` into the store and the `value` it pushed, together with a marker of
whether it has already been dropped (a dropped guard no longer exists in
Rust; the marker lets one state name every guard ever created). -/
structure GuardInfo (T : Type) where
  index : Nat
  value : T
  released : Bool
deriving DecidableEq, Repr

/-- The per-thread world of one key: the store `item` and the list of all
guards ever produced by `set` on this thread and key, in creation order. -/
structure SysState (T : Type) where
  item : List (Option T)
  guards : List (GuardInfo T)
deriving DecidableEq, Repr

/-- A freshly declared key on a thread that has never called `set`:
`Inner::new()` has an empty `item` vector and no guard exists yet. -/
def initState (T : Type) : SysState T := ⟨[], []⟩

/-- A trace element: `set v` is `GuardedKey::set(v)`; `release g` drops the
`g`-th guard ever created (`g` counts creations, not slots). -/
inductive Op (T : Type) where
  | set (v : T)
  | release (g : Nat)
deriving DecidableEq, Repr

/-- One trace step.  `set v` pushes `some v` and appends a guard holding the
new last index, exactly as `GuardedKey::set`; it cannot fail.  `release g`
runs `Guard::drop` for guard `g`: a trace that names a nonexistent or
already-dropped guard is not expressible in Rust (ownership drops each guard
exactly once) and is rejected with `none`, and a failing slot lookup in
`Guard::drop` (the `unwrap` panic) also yields `none`. -/
def step {T : Type} (s : SysState T) : Op T → Option (SysState T)
  | Op.set v =>
      some { item := s.item ++ [some v],
             guards := s.guards ++ [⟨(s.item ++ [some v]).length - 1, v, false⟩] }
  | Op.release g =>
      match s.guards[g]? with
      | none => none
      | some gi =>
          if gi.released then none
          else
            match release s.item gi.index with
            | none => none
            | some item2 =>
                some { item := item2,
                       guards := s.guards.set g { gi with released := true } }

/-- Run a trace from a given state; `none` when some step is invalid. -/
def runFrom {T : Type} (s : SysState T) : List (Op T) → Option (SysState T)
  | [] => some s
  | op :: ops =>
      match step s op with
      | some s' => runFrom s' ops
      | none => none

/-- Run a trace from the fresh, never-`set` state. -/
def run {T : Type} (ops : List (Op T)) : Option (SysState T) :=
  runFrom (initState T) ops

/-- The states an actual program can reach in the thread-local world of one
key. -/
inductive Reachable {T : Type} : SysState T → Prop where
  | init : Reachable (initState T)
  | next {s s' : SysState T} {op : Op T} :
      Reachable s → step s op = some s' → Reachable s'

/-- Modelled from the spec: "the most recently created, not-yet-released
Guard among all guards created so far for that thread and key".  Scanning
creation order, a later not-yet-released guard wins over an earlier one. -/
def lastActive {T : Type} : List (GuardInfo T) → Option (GuardInfo T)
  | [] => none
  | gi :: gs =>
      match lastActive gs with
      | some gi' => some gi'
      | none => if gi.released then none else some gi

/-- What the `Clone` implementation of the stored type does while the outer
`get` clones the value it returns: nothing, or one reentrant call on the
same key (`reSet` re-enters `set`, `reGet` re-enters `get`). -/
inductive ReOp where
  | reSet
  | reGet
deriving DecidableEq, Repr

/-- Outcome of the outer `get` when `Clone` of the stored type may re-enter
the key.  `unsetPanic` and `internalPanic` are the two panics of `get`
itself; `borrowMutPanic` is the std `RefCell` panic
"already borrowed: BorrowMutError" raised when `set` calls `borrow_mut`
while a shared borrow is live. -/
inductive GetOutcome (T : Type) where
  | unsetPanic
  | internalPanic
  | borrowMutPanic
  | ok (v : T)
deriving DecidableEq, Repr

/-- Run of the `Clone` of the stored value, with `shared` live shared
borrows of the `RefCell` around it.  Modelled from std `RefCell` semantics,
which the repository relies on: `borrow_mut` (used by `set`) panics while
any borrow is live, while another `borrow` (used by `get`) succeeds
alongside live shared borrows, so a reentrant `get` reads the same list
again and returns normally (its own clone is taken reentry-free). -/
def cloneRun {T : Type} (v : T) (shared : Nat) (re : Option ReOp)
    (item : List (Option T)) : GetOutcome T :=
  match re with
  | none => GetOutcome.ok v
  | some ReOp.reSet =>
      if shared = 0 then GetOutcome.ok v else GetOutcome.borrowMutPanic
  | some ReOp.reGet =>
      match item.getLast? with
      | none => GetOutcome.unsetPanic
      | some none => GetOutcome.internalPanic
      | some (some _) => GetOutcome.ok v

/-- `GuardedKey::get` with the `Clone` of the stored type allowed to
re-enter the key: the whole read `inner.item.last().cloned()` runs inside
`with_borrow`, so the clone of the last value executes with one shared
borrow live. -/
def getWithClone {T : Type} (item : List (Option T)) (re : Option ReOp) :
    GetOutcome T :=
  match item.getLast? with
  | none => GetOutcome.unsetPanic
  | some none => GetOutcome.internalPanic
  | some (some v) => cloneRun v 1 re item

/-- The trace of the test `out_of_order_guard_drop` up to its second read:
three sets, then guard 1 and guard 3 are dropped out of creation order. -/
def exampleTrace : List (Op Nat) :=
  [Op.set 1, Op.set 2, Op.set 3, Op.release 0, Op.release 2]

/-- The state `run exampleTrace` ends in: slot 0 is an interior released
slot, slot 1 still holds 2; guard 1 is the latest active guard. -/
def exampleState : SysState Nat :=
  ⟨[none, some 2], [⟨0, 1, true⟩, ⟨1, 2, false⟩, ⟨2, 3, true⟩]⟩

/-- A trace that sets once and drops the one guard again. -/
def emptiedTrace : List (Op Nat) := [Op.set 5, Op.release 0]

/-- The state `run emptiedTrace` ends in: the store is empty again. -/
def emptiedState : SysState Nat := ⟨[], [⟨0, 5, true⟩]⟩

/-- A two-guard state used to exercise single steps. -/
def twoGuardTrace : List (Op Nat) := [Op.set 1, Op.set 2]

/-- The state `run twoGuardTrace` ends in. -/
def twoGuardState : SysState Nat :=
  ⟨[some 1, some 2], [⟨0, 1, false⟩, ⟨1, 2, false⟩]⟩

/-- The state one step after `twoGuardState` when guard 0 is dropped:
an interior released slot remains. -/
def releasedOnceState : SysState Nat :=
  ⟨[none, some 2], [⟨0, 1, true⟩, ⟨1, 2, false⟩]⟩

/-- The state one step after `twoGuardState` when a third value is set. -/
def pushedThirdState : SysState Nat :=
  ⟨[some 1, some 2, some 7],
    [⟨0, 1, false⟩, ⟨1, 2, false⟩, ⟨2, 7, false⟩]⟩

/-- The length the store has after a trace, `none` when the trace is not a
possible execution. -/
def storeLenAfter {T : Type} (ops : List (Op T)) : Option Nat :=
  (run ops).map fun s => s.item.length

/-- The invariant tying the store to the guards ever created:
`mono` — indices of not-yet-released guards grow with creation order;
`slots` — the slot of a not-yet-released guard still holds its value;
`owner` — every occupied slot is owned by a not-yet-released guard;
`top` — the last slot, if any, is not released (no trailing released
slot survives a completed operation). -/
structure Inv {T : Type} (s : SysState T) : Prop where
  mono : ∀ (k1 k2 : Nat) (gi1 gi2 : GuardInfo T), k1 < k2 →
    s.guards[k1]? = some gi1 → s.guards[k2]? = some gi2 →
    gi1.released = false → gi2.released = false → gi1.index < gi2.index
  slots : ∀ (k : Nat) (gi : GuardInfo T), s.guards[k]? = some gi →
    gi.released = false → s.item[gi.index]? = some (some gi.value)
  owner : ∀ (j : Nat) (v : T), s.item[j]? = some (some v) →
    ∃ (k : Nat) (gi : GuardInfo T), s.guards[k]? = some gi ∧
      gi.released = false ∧ gi.index = j ∧ gi.value = v
  top : s.item.getLast? ≠ some none

/-! Lemmas about the compaction loop. -/

theorem head?_dropWhile_false {α : Type} (p : α → Bool) (l : List α) (a : α)
    (h : (l.dropWhile p).head? = some a) : p a = false := by
  induction l with
  | nil => simp [List.dropWhile] at h
  | cons x xs ih =>
      rw [List.dropWhile_cons] at h
      by_cases hp : p x = true
      · rw [if_pos hp] at h
        exact ih h
      · rw [if_neg hp] at h
        simp only [List.head?_cons, Option.some.injEq] at h
        subst h
        simpa using hp

theorem compact_append {T : Type} (l : List (Option T)) :
    compact l ++ (l.reverse.takeWhile Option.isNone).reverse = l := by
  have hsplit := List.takeWhile_append_dropWhile Option.isNone l.reverse
  calc compact l ++ (l.reverse.takeWhile Option.isNone).reverse
      = (l.reverse.takeWhile Option.isNone ++
          l.reverse.dropWhile Option.isNone).reverse := by
        rw [List.reverse_append]; rfl
    _ = l.reverse.reverse := by rw [hsplit]
    _ = l := l.reverse_reverse

theorem compact_dropped_eq_none {T : Type} (l : List (Option T)) (x : Option T)
    (hx : x ∈ (l.reverse.takeWhile Option.isNone).reverse) : x = none := by
  rw [List.mem_reverse] at hx
  exact Option.isNone_iff_eq_none.mp (List.mem_takeWhile_imp hx)

theorem compact_length_le {T : Type} (l : List (Option T)) :
    (compact l).length ≤ l.length := by
  conv_rhs => rw [← compact_append l]
  simp

theorem compact_getElem? {T : Type} (l : List (Option T)) (j : Nat)
    (hj : j < (compact l).length) : l[j]? = (compact l)[j]? := by
  conv_lhs => rw [← compact_append l]
  rw [List.getElem?_append, if_pos hj]

theorem lt_compact_length {T : Type} (l : List (Option T)) (j : Nat) (v : T)
    (h : l[j]? = some (some v)) : j < (compact l).length := by
  by_contra hc
  push_neg at hc
  rw [← compact_append l, List.getElem?_append_right hc] at h
  have hx := compact_dropped_eq_none l _ (List.getElem?_mem h)
  cases hx

theorem compact_getLast?_ne {T : Type} (l : List (Option T)) :
    (compact l).getLast? ≠ some none := by
  intro h
  rw [List.getLast?_eq_head?_reverse, compact, List.reverse_reverse] at h
  have := head?_dropWhile_false Option.isNone l.reverse none h
  simp at this

theorem compact_nil {T : Type} : compact ([] : List (Option T)) = [] := rfl

theorem compact_getLast?_some {T : Type} (l : List (Option T)) (v : T)
    (h : l.getLast? = some (some v)) : compact l = l := by
  rw [List.getLast?_eq_head?_reverse] at h
  cases hr : l.reverse with
  | nil => rw [hr] at h; cases h
  | cons a as =>
      rw [hr] at h
      simp only [List.head?_cons, Option.some.injEq] at h
      subst h
      rw [compact, hr, List.dropWhile_cons]
      simp only [Option.isNone_some, Bool.false_eq_true, if_false]
      rw [← hr, List.reverse_reverse]

theorem compact_getLast?_none {T : Type} (l : List (Option T))
    (h : l.getLast? = some none) : compact l = compact l.dropLast := by
  rw [List.getLast?_eq_head?_reverse] at h
  cases hr : l.reverse with
  | nil => rw [hr] at h; cases h
  | cons a as =>
      rw [hr] at h
      simp only [List.head?_cons, Option.some.injEq] at h
      subst h
      have hl : l = as.reverse ++ [none] := by
        rw [← List.reverse_reverse l, hr, List.reverse_cons]
      rw [compact, hr, List.dropWhile_cons]
      simp only [Option.isNone_none, if_true]
      rw [hl, List.dropLast_concat, compact, List.reverse_reverse]

/-! Lemmas about traces, reachability and the latest active guard. -/

theorem lt_length_of_getElem? {α : Type} {l : List α} {j : Nat} {a : α}
    (h : l[j]? = some a) : j < l.length := by
  rw [List.getElem?_eq_some] at h
  exact h.1

theorem getElem?_singleton {α : Type} {a b : α} {k : Nat}
    (h : ([a] : List α)[k]? = some b) : k = 0 ∧ b = a := by
  cases k with
  | zero => simp at h; exact ⟨rfl, h.symm⟩
  | succ k => simp at h

theorem runFrom_append {T : Type} (s : SysState T) (a b : List (Op T)) :
    runFrom s (a ++ b) = (runFrom s a).bind fun s2 => runFrom s2 b := by
  induction a generalizing s with
  | nil => simp [runFrom]
  | cons op ops ih =>
      cases h : step s op with
      | none => simp [runFrom, h]
      | some s2 => simp [runFrom, h, ih]

theorem runFrom_reachable {T : Type} (ops : List (Op T)) (s0 s : SysState T)
    (h0 : Reachable s0) (h : runFrom s0 ops = some s) : Reachable s := by
  induction ops generalizing s0 with
  | nil =>
      rw [runFrom] at h
      cases h
      exact h0
  | cons op ops ih =>
      rw [runFrom] at h
      cases hs : step s0 op with
      | none => rw [hs] at h; cases h
      | some s1 =>
          rw [hs] at h
          exact ih s1 (Reachable.next h0 hs) h

theorem run_reachable {T : Type} (ops : List (Op T)) (s : SysState T)
    (h : run ops = some s) : Reachable s :=
  runFrom_reachable ops (initState T) s Reachable.init h

theorem lastActive_eq_none {T : Type} (gs : List (GuardInfo T)) :
    lastActive gs = none →
    ∀ (k : Nat) (gi : GuardInfo T), gs[k]? = some gi → gi.released = true := by
  induction gs with
  | nil => intro _ k gi hk; simp at hk
  | cons g rest ih =>
      intro h k gi hk
      rw [lastActive] at h
      cases hr : lastActive rest with
      | some gj => rw [hr] at h; cases h
      | none =>
          rw [hr] at h
          by_cases hg : g.released = true
          · cases k with
            | zero =>
                simp only [List.getElem?_cons_zero, Option.some.injEq] at hk
                rw [← hk]
                exact hg
            | succ k =>
                rw [List.getElem?_cons_succ] at hk
                exact ih hr k gi hk
          · rw [if_neg hg] at h
            cases h

theorem lastActive_eq_some {T : Type} (gs : List (GuardInfo T))
    (gi : GuardInfo T) :
    lastActive gs = some gi →
    ∃ k, gs[k]? = some gi ∧ gi.released = false ∧
      ∀ (k2 : Nat) (gi2 : GuardInfo T), gs[k2]? = some gi2 → k < k2 →
        gi2.released = true := by
  induction gs with
  | nil => intro h; rw [lastActive] at h; cases h
  | cons g rest ih =>
      intro h
      rw [lastActive] at h
      cases hr : lastActive rest with
      | some gj =>
          rw [hr] at h
          cases h
          obtain ⟨k, hk, hrel, hmax⟩ := ih hr
          refine ⟨k + 1, by simpa using hk, hrel, ?_⟩
          intro k2 gi2 hk2 hlt
          cases k2 with
          | zero => cases hlt
          | succ k3 =>
              rw [List.getElem?_cons_succ] at hk2
              exact hmax k3 gi2 hk2 (Nat.lt_of_succ_lt_succ hlt)
      | none =>
          rw [hr] at h
          by_cases hg : g.released = true
          · rw [if_pos hg] at h; cases h
          · rw [if_neg hg] at h
            cases h
            refine ⟨0, by simp, by simpa using hg, ?_⟩
            intro k2 gi2 hk2 hlt
            cases k2 with
            | zero => cases hlt
            | succ k3 =>
                rw [List.getElem?_cons_succ] at hk2
                exact lastActive_eq_none rest hr k3 gi2 hk2

/-! Preservation of the invariant. -/

theorem inv_init {T : Type} : Inv (initState T) := by
  constructor
  · intro k1 k2 gi1 gi2 _ h1 _ _ _
    simp [initState] at h1
  · intro k gi hk
    simp [initState] at hk
  · intro j v hj
    simp [initState] at hj
  · simp [initState]

theorem Inv.index_ne {T : Type} {s : SysState T} (hs : Inv s)
    {k1 k2 : Nat} {gi1 gi2 : GuardInfo T} (hne : k1 ≠ k2)
    (h1 : s.guards[k1]? = some gi1) (h2 : s.guards[k2]? = some gi2)
    (hr1 : gi1.released = false) (hr2 : gi2.released = false) :
    gi1.index ≠ gi2.index := by
  rcases Nat.lt_trichotomy k1 k2 with hlt | heq | hgt
  · exact Nat.ne_of_lt (hs.mono k1 k2 gi1 gi2 hlt h1 h2 hr1 hr2)
  · exact absurd heq hne
  · exact (Nat.ne_of_lt (hs.mono k2 k1 gi2 gi1 hgt h2 h1 hr2 hr1)).symm

theorem inv_set {T : Type} {s s' : SysState T} {v : T} (hs : Inv s)
    (hitem : s'.item = s.item ++ [some v])
    (hguards : s'.guards = s.guards ++ [⟨s.item.length, v, false⟩]) :
    Inv s' := by
  constructor
  · intro k1 k2 gi1 gi2 hlt h1 h2 hr1 hr2
    rw [hguards, List.getElem?_append] at h1 h2
    by_cases hk2 : k2 < s.guards.length
    · rw [if_pos (Nat.lt_trans hlt hk2)] at h1
      rw [if_pos hk2] at h2
      exact hs.mono k1 k2 gi1 gi2 hlt h1 h2 hr1 hr2
    · rw [if_neg hk2] at h2
      obtain ⟨hz2, hb2⟩ := getElem?_singleton h2
      by_cases hk1 : k1 < s.guards.length
      · rw [if_pos hk1] at h1
        have hi1 : gi1.index < s.item.length :=
          lt_length_of_getElem? (hs.slots k1 gi1 h1 hr1)
        rw [hb2]
        exact hi1
      · rw [if_neg hk1] at h1
        obtain ⟨hz1, _⟩ := getElem?_singleton h1
        push_neg at hk1 hk2
        omega
  · intro k gi hk hrel
    rw [hguards, List.getElem?_append] at hk
    by_cases hklt : k < s.guards.length
    · rw [if_pos hklt] at hk
      have hold := hs.slots k gi hk hrel
      rw [hitem, List.getElem?_append, if_pos (lt_length_of_getElem? hold)]
      exact hold
    · rw [if_neg hklt] at hk
      obtain ⟨_, hb⟩ := getElem?_singleton hk
      rw [hb, hitem]
      exact List.getElem?_concat_length s.item (some v)
  · intro j w hj
    rw [hitem, List.getElem?_append] at hj
    by_cases hjl : j < s.item.length
    · rw [if_pos hjl] at hj
      obtain ⟨k, gi, hk, hrel, hkidx, hkval⟩ := hs.owner j w hj
      refine ⟨k, gi, ?_, hrel, hkidx, hkval⟩
      rw [hguards, List.getElem?_append, if_pos (lt_length_of_getElem? hk)]
      exact hk
    · rw [if_neg hjl] at hj
      obtain ⟨hz, hb⟩ := getElem?_singleton hj
      push_neg at hjl
      have hj_eq : j = s.item.length := by omega
      have hvw : w = v := by simpa using hb
      refine ⟨s.guards.length, ⟨s.item.length, v, false⟩, ?_, rfl,
        hj_eq.symm, hvw.symm⟩
      rw [hguards]
      exact List.getElem?_concat_length s.guards _
  · rw [hitem, List.getLast?_concat]
    simp

theorem inv_release {T : Type} {s s' : SysState T} {g : Nat}
    {gi : GuardInfo T} (hs : Inv s) (hg : s.guards[g]? = some gi)
    (hrel : gi.released = false) (hlt : gi.index < s.item.length)
    (hitem : s'.item = compact (s.item.set gi.index none))
    (hguards : s'.guards = s.guards.set g { gi with released := true }) :
    Inv s' := by
  have hglen : g < s.guards.length := lt_length_of_getElem? hg
  have hset_at : s'.guards[g]? = some { gi with released := true } := by
    rw [hguards]
    exact List.getElem?_set_self hglen
  have hset_ne : ∀ k, k ≠ g → s'.guards[k]? = s.guards[k]? := by
    intro k hk
    rw [hguards]
    exact List.getElem?_set_ne (Ne.symm hk)
  have hold : ∀ (k : Nat) (gi2 : GuardInfo T), s'.guards[k]? = some gi2 →
      gi2.released = false → k ≠ g ∧ s.guards[k]? = some gi2 := by
    intro k gi2 hk hr2
    by_cases hkg : k = g
    · subst hkg
      rw [hset_at] at hk
      cases hk
      simp at hr2
    · refine ⟨hkg, ?_⟩
      rw [← hset_ne k hkg]
      exact hk
  constructor
  · intro k1 k2 gi1 gi2 hlt12 h1 h2 hr1 hr2
    obtain ⟨hne1, h1b⟩ := hold k1 gi1 h1 hr1
    obtain ⟨hne2, h2b⟩ := hold k2 gi2 h2 hr2
    exact hs.mono k1 k2 gi1 gi2 hlt12 h1b h2b hr1 hr2
  · intro k gi2 hk hr2
    obtain ⟨hne, hkb⟩ := hold k gi2 hk hr2
    have hold_slot := hs.slots k gi2 hkb hr2
    have hidx_ne : gi2.index ≠ gi.index := hs.index_ne hne hkb hg hr2 hrel
    have h1 : (s.item.set gi.index none)[gi2.index]? = some (some gi2.value) := by
      rw [List.getElem?_set_ne (Ne.symm hidx_ne)]
      exact hold_slot
    have hjlt := lt_compact_length _ _ _ h1
    rw [hitem, ← compact_getElem? _ _ hjlt]
    exact h1
  · intro j w hj
    rw [hitem] at hj
    have hjlt : j < (compact (s.item.set gi.index none)).length :=
      lt_length_of_getElem? hj
    rw [← compact_getElem? _ _ hjlt] at hj
    have hj_ne : j ≠ gi.index := by
      intro heq
      subst heq
      rw [List.getElem?_set_self hlt] at hj
      cases hj
    rw [List.getElem?_set_ne hj_ne.symm] at hj
    obtain ⟨k, gi2, hk, hr2, hkidx, hkval⟩ := hs.owner j w hj
    have hkg : k ≠ g := by
      intro heq
      subst heq
      rw [hg] at hk
      cases hk
      exact hj_ne hkidx.symm
    refine ⟨k, gi2, ?_, hr2, hkidx, hkval⟩
    rw [hset_ne k hkg]
    exact hk
  · rw [hitem]
    exact compact_getLast?_ne _

theorem inv_step {T : Type} {s s' : SysState T} {op : Op T}
    (hs : Inv s) (h : step s op = some s') : Inv s' := by
  cases op with
  | set v =>
      simp only [step, Option.some.injEq] at h
      refine inv_set (v := v) hs ?_ ?_
      · rw [← h]
      · rw [← h]
        simp
  | release g =>
      simp only [step] at h
      cases hg : s.guards[g]? with
      | none =>
          rw [hg] at h
          simp at h
      | some gi =>
          rw [hg] at h
          simp only [] at h
          by_cases hrel : gi.released = true
          · rw [if_pos hrel] at h
            simp at h
          · rw [if_neg hrel] at h
            cases hri : release s.item gi.index with
            | none =>
                rw [hri] at h
                simp at h
            | some item2 =>
                rw [hri] at h
                simp only [Option.some.injEq] at h
                rw [release] at hri
                by_cases hlt : gi.index < s.item.length
                · rw [if_pos hlt] at hri
                  injection hri with hri
                  refine inv_release hs hg ?_ hlt ?_ ?_
                  · simpa using hrel
                  · rw [← h]
                    exact hri.symm
                  · rw [← h]
                · rw [if_neg hlt] at hri
                  cases hri

theorem inv_of_reachable {T : Type} {s : SysState T} (h : Reachable s) :
    Inv s := by
  induction h with
  | init => exact inv_init
  | next _ hstep ih => exact inv_step ih hstep

/-! Whole set and release phases of a trace. -/

theorem item_nil_of_all_released {T : Type} {s : SysState T} (hs : Inv s)
    (hall : ∀ (k : Nat) (gi : GuardInfo T), s.guards[k]? = some gi →
      gi.released = true) : s.item = [] := by
  by_contra hne
  have hlen : 0 < s.item.length := List.length_pos.mpr hne
  have h1 : s.item.length - 1 < s.item.length := Nat.sub_lt hlen Nat.one_pos
  obtain ⟨o, ho⟩ : ∃ o, s.item[s.item.length - 1]? = some o :=
    ⟨_, List.getElem?_eq_getElem h1⟩
  cases o with
  | none =>
      apply hs.top
      rw [List.getLast?_eq_getElem?]
      exact ho
  | some v =>
      obtain ⟨k, gi, hk, hrel, _, _⟩ := hs.owner _ v ho
      rw [hall k gi hk] at hrel
      cases hrel

theorem runFrom_sets {T : Type} (vals : List T) (s : SysState T)
    (hr : Reachable s)
    (hact : ∀ (k : Nat) (gi : GuardInfo T), s.guards[k]? = some gi →
      gi.released = false) :
    ∃ s2, runFrom s (vals.map Op.set) = some s2 ∧ Reachable s2 ∧
      s2.guards.length = s.guards.length + vals.length ∧
      ∀ (k : Nat) (gi : GuardInfo T), s2.guards[k]? = some gi →
        gi.released = false := by
  induction vals generalizing s with
  | nil => exact ⟨s, rfl, hr, by simp, hact⟩
  | cons v vs ih =>
      set s1 : SysState T :=
        { item := s.item ++ [some v],
          guards := s.guards ++ [⟨(s.item ++ [some v]).length - 1, v, false⟩] }
        with hs1
      have hstep : step s (Op.set v) = some s1 := rfl
      have hact1 : ∀ (k : Nat) (gi : GuardInfo T), s1.guards[k]? = some gi →
          gi.released = false := by
        intro k gi hk
        rw [hs1] at hk
        simp only [List.getElem?_append] at hk
        by_cases hklt : k < s.guards.length
        · rw [if_pos hklt] at hk
          exact hact k gi hk
        · rw [if_neg hklt] at hk
          obtain ⟨_, hb⟩ := getElem?_singleton hk
          rw [hb]
      obtain ⟨s2, hrun, hreach, hlen, hact2⟩ :=
        ih s1 (Reachable.next hr hstep) hact1
      refine ⟨s2, ?_, hreach, ?_, hact2⟩
      · rw [List.map_cons, runFrom, hstep]
        exact hrun
      · rw [hlen, hs1]
        simp
        omega

theorem runFrom_releases {T : Type} (rel : List Nat) (s : SysState T)
    (hr : Reachable s) (hnd : rel.Nodup)
    (hlen : ∀ k, k ∈ rel → k < s.guards.length)
    (hact : ∀ (k : Nat) (gi : GuardInfo T), s.guards[k]? = some gi →
      (gi.released = false ↔ k ∈ rel)) :
    ∃ s2, runFrom s (rel.map Op.release) = some s2 ∧ Reachable s2 ∧
      ∀ (k : Nat) (gi : GuardInfo T), s2.guards[k]? = some gi →
        gi.released = true := by
  induction rel generalizing s with
  | nil =>
      refine ⟨s, rfl, hr, ?_⟩
      intro k gi hk
      have := (hact k gi hk).mp
      by_contra hcon
      have hfalse : gi.released = false := by
        cases hgr : gi.released
        · rfl
        · exact absurd hgr hcon
      exact (List.not_mem_nil k) (this hfalse)
  | cons r rest ih =>
      have hrlen : r < s.guards.length := hlen r (List.mem_cons_self r rest)
      obtain ⟨gi, hg⟩ : ∃ gi, s.guards[r]? = some gi :=
        ⟨_, List.getElem?_eq_getElem hrlen⟩
      have hgrel : gi.released = false :=
        (hact r gi hg).mpr (List.mem_cons_self r rest)
      have hs := inv_of_reachable hr
      have hilt : gi.index < s.item.length :=
        lt_length_of_getElem? (hs.slots r gi hg hgrel)
      set s1 : SysState T :=
        { item := compact (s.item.set gi.index none),
          guards := s.guards.set r { gi with released := true } } with hs1
      have hstep : step s (Op.release r) = some s1 := by
        simp only [step, hg]
        rw [if_neg (by rw [hgrel]; exact Bool.false_ne_true), release,
          if_pos hilt]
      have hreach1 : Reachable s1 := Reachable.next hr hstep
      have hnd_rest : rest.Nodup := (List.nodup_cons.mp hnd).2
      have hr_not_rest : r ∉ rest := (List.nodup_cons.mp hnd).1
      have hlen1 : ∀ k, k ∈ rest → k < s1.guards.length := by
        intro k hk
        rw [hs1]
        simpa using hlen k (List.mem_cons_of_mem r hk)
      have hact1 : ∀ (k : Nat) (gi2 : GuardInfo T), s1.guards[k]? = some gi2 →
          (gi2.released = false ↔ k ∈ rest) := by
        intro k gi2 hk
        by_cases hkr : k = r
        · subst hkr
          rw [hs1] at hk
          rw [List.getElem?_set_self hrlen] at hk
          cases hk
          constructor
          · intro hfalse
            cases hfalse
          · intro hmem
            exact absurd hmem hr_not_rest
        · rw [hs1] at hk
          rw [List.getElem?_set_ne (Ne.symm hkr)] at hk
          rw [hact k gi2 hk]
          constructor
          · intro hmem
            cases List.mem_cons.mp hmem with
            | inl heq => exact absurd heq hkr
            | inr hm => exact hm
          · exact List.mem_cons_of_mem r
      obtain ⟨s2, hrun, hreach2, hall⟩ := ih s1 hreach1 hnd_rest hlen1 hact1
      refine ⟨s2, ?_, hreach2, hall⟩
      rw [List.map_cons, runFrom, hstep]
      exact hrun

theorem sets_releases_empty {T : Type} (vals : List T) (perm : List Nat)
    (hp : perm.Perm (List.range vals.length)) :
    ∃ s, run (vals.map Op.set ++ perm.map Op.release) = some s ∧
      s.item = [] := by
  obtain ⟨s1, hrun1, hreach1, hlen1, hact1⟩ :=
    runFrom_sets vals (initState T) Reachable.init
      (by intro k gi hk; simp [initState] at hk)
  have hglen : s1.guards.length = vals.length := by
    rw [hlen1]; simp [initState]
  have hmem_perm : ∀ k, k ∈ perm ↔ k < vals.length := by
    intro k
    rw [hp.mem_iff, List.mem_range]
  obtain ⟨s2, hrun2, hreach2, hall⟩ :=
    runFrom_releases perm s1 hreach1
      (hp.symm.nodup (List.nodup_range vals.length))
      (by intro k hk; rw [hglen]; exact (hmem_perm k).mp hk)
      (by
        intro k gi hk
        have hklt : k < vals.length := by
          have := lt_length_of_getElem? hk
          rwa [hglen] at this
        constructor
        · intro _
          exact (hmem_perm k).mpr hklt
        · intro _
          exact hact1 k gi hk)
  exact ⟨s2, by rw [run, runFrom_append, hrun1]; exact hrun2,
    item_nil_of_all_released (inv_of_reachable hreach2) hall⟩

/-! The claims. -/

/-- C1: at every state reachable by any sequence of `set` calls and guard
releases in any order, whenever a not-yet-released guard exists, `get`
returns the value supplied by the most recently created such guard; in
particular the order in which earlier guards were released along the trace
does not affect the result. -/
theorem c1_get_latest_active {T : Type} (s : SysState T) (h : Reachable s)
    (gi : GuardInfo T) (hla : lastActive s.guards = some gi) :
    get s.item = GetResult.value gi.value := by
  have hs := inv_of_reachable h
  obtain ⟨k, hk, hrel, hmax⟩ := lastActive_eq_some s.guards gi hla
  have hslot := hs.slots k gi hk hrel
  have hidx : gi.index < s.item.length := lt_length_of_getElem? hslot
  have hlen : 0 < s.item.length := Nat.lt_of_le_of_lt (Nat.zero_le _) hidx
  have h1 : s.item.length - 1 < s.item.length := Nat.sub_lt hlen Nat.one_pos
  obtain ⟨o, ho⟩ : ∃ o, s.item[s.item.length - 1]? = some o :=
    ⟨_, List.getElem?_eq_getElem h1⟩
  have hgl : s.item.getLast? = some o := by
    rw [List.getLast?_eq_getElem?]
    exact ho
  cases o with
  | none => exact absurd hgl hs.top
  | some w =>
      obtain ⟨k2, gi2, hk2, hrel2, hidx2, hval2⟩ := hs.owner _ w ho
      have hk2k : k2 = k := by
        by_contra hne
        rcases Nat.lt_trichotomy k2 k with hlt | heq | hgt
        · have := hs.mono k2 k gi2 gi hlt hk2 hk hrel2 hrel
          omega
        · exact hne heq
        · have := hmax k2 gi2 hk2 hgt
          rw [this] at hrel2
          cases hrel2
      subst hk2k
      rw [hk] at hk2
      cases hk2
      rw [← hval2] at hgl
      simp [get, hgl]

/-- Witness for C1: on the out-of-order trace of test
`out_of_order_guard_drop` (guards 1 and 3 dropped, guard 2 alive) `get`
returns 2, the value of the latest still-active guard. -/
theorem c1_get_latest_active_witness :
    get exampleState.item = GetResult.value 2 :=
  c1_get_latest_active exampleState
    (run_reachable exampleTrace exampleState (by decide))
    ⟨1, 2, false⟩ (by decide)

/-- C2: at every reachable state — i.e. after any guard release (or set)
operation has completed — the store has no trailing `None` entry: its last
entry, when present, is not `None`. -/
theorem c2_no_trailing_none {T : Type} (s : SysState T) (h : Reachable s) :
    s.item.getLast? ≠ some none :=
  (inv_of_reachable h).top

/-- Witness for C2 at the state of the out-of-order trace. -/
theorem c2_no_trailing_none_witness :
    exampleState.item.getLast? ≠ some none :=
  c2_no_trailing_none exampleState
    (run_reachable exampleTrace exampleState (by decide))

/-- C3: at every reachable state with no active guard — including the fresh
state of a key on a thread that never called `set` as well as states whose
guards were all released — the store is empty and `get` fails with exactly
the unset-access panic. -/
theorem c3_unset_error {T : Type} (s : SysState T) (h : Reachable s)
    (hn : lastActive s.guards = none) :
    s.item = [] ∧ get s.item = GetResult.unset := by
  have hnil := item_nil_of_all_released (inv_of_reachable h)
    (lastActive_eq_none s.guards hn)
  refine ⟨hnil, ?_⟩
  rw [hnil]
  rfl

/-- Witness for C3 at the state where the only guard was dropped again. -/
theorem c3_unset_error_witness :
    emptiedState.item = [] ∧ get emptiedState.item = GetResult.unset :=
  c3_unset_error emptiedState
    (run_reachable emptiedTrace emptiedState (by decide)) (by decide)

/-- C4: releasing the guard with creation number g and slot index i does
exactly: write `None` at i, then pop the last entry while it is `None`
(`compact`); the result never grows the store.  `set` does the opposite:
it never shrinks the store but extends it by exactly one slot. -/
theorem c4_release_steps {T : Type} (s sr ss : SysState T) (g : Nat)
    (gi : GuardInfo T) (v : T) (hg : s.guards[g]? = some gi)
    (hrel : step s (Op.release g) = some sr)
    (hset : step s (Op.set v) = some ss) :
    sr.item = compact (s.item.set gi.index none) ∧
    sr.item.length ≤ s.item.length ∧
    ss.item = s.item ++ [some v] ∧
    ss.item.length = s.item.length + 1 := by
  simp only [step, hg] at hrel
  by_cases hgr : gi.released = true
  · rw [if_pos hgr] at hrel
    cases hrel
  · rw [if_neg hgr] at hrel
    cases hri : release s.item gi.index with
    | none =>
        rw [hri] at hrel
        cases hrel
    | some item2 =>
        rw [hri] at hrel
        simp only [Option.some.injEq] at hrel
        rw [release] at hri
        by_cases hlt : gi.index < s.item.length
        · rw [if_pos hlt] at hri
          injection hri with hri
          have hitem : sr.item = compact (s.item.set gi.index none) := by
            rw [← hrel, ← hri]
          have hsets : ss.item = s.item ++ [some v] := by
            simp only [step, Option.some.injEq] at hset
            rw [← hset]
          refine ⟨hitem, ?_, hsets, by rw [hsets]; simp⟩
          rw [hitem]
          have := compact_length_le (s.item.set gi.index none)
          rwa [List.length_set] at this
        · rw [if_neg hlt] at hri
          cases hri

/-- Witness for C4: dropping guard 0 of the two-guard state rewrites slot 0
and compacts nothing (slot 1 is occupied); setting 7 appends one slot. -/
theorem c4_release_steps_witness :
    releasedOnceState.item = compact (twoGuardState.item.set 0 none) ∧
    releasedOnceState.item.length ≤ twoGuardState.item.length ∧
    pushedThirdState.item = twoGuardState.item ++ [some 7] ∧
    pushedThirdState.item.length = twoGuardState.item.length + 1 :=
  c4_release_steps twoGuardState releasedOnceState pushedThirdState 0
    ⟨0, 1, false⟩ 7 (by decide) (by decide) (by decide)

/-- C5: from every state, `set v` pushes `some v` to the end of the store,
appends a guard carrying the new last index, never fails (the step is
always `some`), and an immediate `get` on the same thread returns v. -/
theorem c5_set_pushes {T : Type} (s : SysState T) (v : T) :
    step s (Op.set v) =
      some ⟨s.item ++ [some v], s.guards ++ [⟨s.item.length, v, false⟩]⟩ ∧
    (s.item ++ [some v]).length - 1 = s.item.length ∧
    get (s.item ++ [some v]) = GetResult.value v := by
  refine ⟨?_, by simp, ?_⟩
  · simp [step]
  · simp [get, List.getLast?_concat]

/-- C6: at every reachable state, no two not-yet-released guards share a
slot index, every not-yet-released guard points inside the store at a slot
still holding its value, and hence the slot lookup performed when that
guard is released cannot fail. -/
theorem c6_guard_ownership {T : Type} (s : SysState T) (h : Reachable s) :
    (∀ (k1 k2 : Nat) (gi1 gi2 : GuardInfo T), k1 ≠ k2 →
      s.guards[k1]? = some gi1 → s.guards[k2]? = some gi2 →
      gi1.released = false → gi2.released = false →
      gi1.index ≠ gi2.index) ∧
    (∀ (k : Nat) (gi : GuardInfo T), s.guards[k]? = some gi →
      gi.released = false →
      gi.index < s.item.length ∧ s.item[gi.index]? = some (some gi.value)) ∧
    (∀ (g : Nat) (gi : GuardInfo T), s.guards[g]? = some gi →
      gi.released = false → (step s (Op.release g)).isSome = true) := by
  have hs := inv_of_reachable h
  refine ⟨fun k1 k2 gi1 gi2 hne h1 h2 hr1 hr2 =>
    hs.index_ne hne h1 h2 hr1 hr2, ?_, ?_⟩
  · intro k gi hk hrel
    have hslot := hs.slots k gi hk hrel
    exact ⟨lt_length_of_getElem? hslot, hslot⟩
  · intro g gi hg hrel
    have hslot := hs.slots g gi hg hrel
    have hlt := lt_length_of_getElem? hslot
    simp [step, hg, hrel, release, hlt]

/-- Witness for C6: at the two-guard state the release of guard 0 finds its
slot (the step succeeds). -/
theorem c6_guard_ownership_witness :
    (step twoGuardState (Op.release 0)).isSome = true :=
  (c6_guard_ownership twoGuardState
      (run_reachable twoGuardTrace twoGuardState (by decide))).2.2
    0 ⟨0, 1, false⟩ (by decide) (by decide)

/-- C7: at every reachable state the last entry of a non-empty store is not
`None`, so the internal-consistency panic of `get`
("internal error: top of item list is none") is unreachable and `get` on a
non-empty store always returns a value. -/
theorem c7_internal_error_unreachable {T : Type} (s : SysState T)
    (h : Reachable s) :
    get s.item ≠ GetResult.internalError ∧
    (s.item ≠ [] → ∃ v, get s.item = GetResult.value v) := by
  have htop := (inv_of_reachable h).top
  cases hgl : s.item.getLast? with
  | none =>
      have hnil : s.item = [] := List.getLast?_eq_none_iff.mp hgl
      constructor
      · simp [get, hgl]
      · intro hne
        exact absurd hnil hne
  | some o =>
      cases o with
      | none => exact absurd hgl htop
      | some v =>
          constructor
          · simp [get, hgl]
          · intro _
            exact ⟨v, by simp [get, hgl]⟩

/-- Witness for C7 at the state of the out-of-order trace. -/
theorem c7_internal_error_unreachable_witness :
    get exampleState.item ≠ GetResult.internalError :=
  (c7_internal_error_unreachable exampleState
    (run_reachable exampleTrace exampleState (by decide))).1

/-- C8: after n `set` calls, releasing the n guards in strictly creation
order (guard 0 first) leaves the store with length 0 — nothing leaks. -/
theorem c8_creation_order_empties {T : Type} (vals : List T) :
    storeLenAfter (vals.map Op.set ++
      (List.range vals.length).map Op.release) = some 0 := by
  obtain ⟨s, hrun, hnil⟩ :=
    sets_releases_empty vals (List.range vals.length) (List.Perm.refl _)
  rw [storeLenAfter, hrun]
  simp [hnil]

/-- C9 (failing input): evaluating the embedded `get`-with-reentrancy model:
with the store holding one value, a `Clone` that re-enters `get` on the same
key does not fault — the reentrant `get` takes a second shared `RefCell`
borrow, which std permits, and the outer `get` returns the value — whereas
a `Clone` that re-enters `set` faults with the distinct BorrowMutError
panic.  The first conjunct contradicts the documented behavior of `get`
("Panics if the Clone implementation of T accesses this same thread
local") and the claim that any reentrant access fails the outer `get`. -/
theorem c9_reentrant_get_does_not_fault :
    getWithClone [some (5 : Nat)] (some ReOp.reGet) = GetOutcome.ok 5 ∧
    getWithClone [some (5 : Nat)] (some ReOp.reSet) =
      GetOutcome.borrowMutPanic ∧
    (GetOutcome.borrowMutPanic : GetOutcome Nat) ≠ GetOutcome.unsetPanic := by
  decide

/-- C10: after n `set` calls followed by the release of all n guards in ANY
permutation of creation order, the store is back to length 0. -/
theorem c10_any_release_order_empties {T : Type} (vals : List T)
    (perm : List Nat) (hp : perm.Perm (List.range vals.length)) :
    storeLenAfter (vals.map Op.set ++ perm.map Op.release) = some 0 := by
  obtain ⟨s, hrun, hnil⟩ := sets_releases_empty vals perm hp
  rw [storeLenAfter, hrun]
  simp [hnil]

/-- Witness for C10 with three sets released in the order 0, 2, 1. -/
theorem c10_any_release_order_empties_witness :
    storeLenAfter (([10, 20, 30] : List Nat).map Op.set ++
      ([0, 2, 1] : List Nat).map Op.release) = some 0 :=
  c10_any_release_order_empties [10, 20, 30] [0, 2, 1] (by decide)

end GuardedTls
